import Mathlib

/-
Verification development for the flat-file note store
(src/tools/note_tools/tool.py).

The Python module is shallowly embedded below.  Strings are Lean strings
(lists of characters); the regex character classes \w and \s of the source
are modelled over their ASCII range; the notes directory is modelled as an
association list from filename to file content (the NOTES_DIR path prefix
common to every filepath is dropped, so filepaths are represented by the
filename component alone); the wall clock (time.time, datetime.strftime)
is passed in as explicit parameters.  Python dictionaries (the tag index)
are modelled as insertion-ordered association lists, matching the
insertion-order semantics of dict.
-/

namespace Mist

/-! ### Character classes: Python regex \w and \s, ASCII range -/

/-- Python regex word character (ASCII range): [A-Za-z0-9_]. -/
def isWordChar (c : Char) : Bool := c.isAlphanum || c == '_'

/-- Python whitespace (ASCII range): the characters stripped by str.strip
and matched by regex \s. -/
def isSpaceChar (c : Char) : Bool :=
  c == ' ' || c == '\t' || c == '\n' || c == '\r' || c == '\x0b' || c == '\x0c'

/-- Model of Python str.lower (ASCII range): lowercase every character. -/
def pyLower (s : String) : String := String.mk (s.data.map Char.toLower)

/-- Model of Python str.strip with no argument: drop whitespace from both
ends of the string. -/
def pyStrip (s : String) : String :=
  String.mk (((s.data.dropWhile isSpaceChar).reverse.dropWhile isSpaceChar).reverse)

/-- Model of Python truthiness test `s and s.strip()` used as a guard on an
optional string argument. -/
def pyTruthyStripped (s : String) : Bool := s != "" && pyStrip s != ""

/-! ### Substring search: Python's `needle in haystack` -/

/-- Does the first list occur at the very start of the second list? -/
def listLeads : List Char → List Char → Bool
  | [], _ => true
  | _ :: _, [] => false
  | a :: as, b :: bs => a == b && listLeads as bs

/-- Does the first list occur contiguously anywhere in the second list? -/
def listOccurs (needle : List Char) : List Char → Bool
  | [] => needle.isEmpty
  | c :: rest => listLeads needle (c :: rest) || listOccurs needle rest

/-- Model of Python `needle in hay` for strings: contiguous substring. -/
def containsStr (hay needle : String) : Bool := listOccurs needle.data hay.data

/-! ### extract_tags: re.findall(r"#(\w+)", content) -/

/-- Left-to-right non-overlapping scan for `#` followed by one or more word
characters, as performed by re.findall(r"#(\w+)", content); returns the
captured words in order of appearance, duplicates kept.  The extra fuel
argument makes the recursion structural (every step consumes at least one
character, so fuel bounded below by the input length never runs out). -/
def extractTagsAux : Nat → List Char → List String
  | 0, _ => []
  | _, [] => []
  | fuel + 1, c :: rest =>
    if c == '#' then
      if (rest.takeWhile isWordChar).isEmpty then extractTagsAux fuel rest
      else String.mk (rest.takeWhile isWordChar)
        :: extractTagsAux fuel (rest.dropWhile isWordChar)
    else extractTagsAux fuel rest

/-- Embedding of extract_tags from the source. -/
def extract_tags (content : String) : List String :=
  extractTagsAux content.data.length content.data

/-! ### Slug and note id generation (add_note lines 117-123) -/

/-- Embedding of
re.sub(r"[^\w\s-]", "", title).strip().replace(" ", "-").lower():
keep only word, whitespace and hyphen characters, strip whitespace at both
ends, replace every space character by a hyphen, lowercase. -/
def safe_title (title : String) : String :=
  let kept := title.data.filter (fun c => isWordChar c || isSpaceChar c || c == '-')
  let stripped := (kept.dropWhile isSpaceChar).reverse.dropWhile isSpaceChar |>.reverse
  String.mk ((stripped.map (fun c => if c == ' ' then '-' else c)).map Char.toLower)

/-- The note id f"{date_str}-{safe_title}-{timestamp}" built by add_note. -/
def mkNoteId (ts : Nat) (dateStr title : String) : String :=
  dateStr ++ "-" ++ safe_title title ++ "-" ++ toString ts

/-! ### The tag index: a Python dict modelled as an ordered association list -/

/-- tags.json content: tag string to list of note ids, insertion ordered. -/
abbrev TagsIndex := List (String × List String)

/-- Python list.remove: delete the first occurrence of an element. -/
def removeFirst : List String → String → List String
  | [], _ => []
  | y :: ys, x => if y == x then ys else y :: removeFirst ys x

/-- The removal loop shared by update_tags (lines 82-84) and delete_note
(lines 490-492): for every tag list containing the id, remove its first
occurrence. -/
def removeIdAll (ti : TagsIndex) (note_id : String) : TagsIndex :=
  ti.map (fun p => (p.1, if p.2.contains note_id then removeFirst p.2 note_id else p.2))

/-- Python `tag in tags_index` on the dict keys. -/
def hasKey (ti : TagsIndex) (t : String) : Bool := ti.any (fun p => p.1 == t)

/-- Python `tags_index.get(tag, [])` and `tags_index[tag]` lookups. -/
def getKey (ti : TagsIndex) (t : String) : List String :=
  match ti.find? (fun p => p.1 == t) with
  | some p => p.2
  | none => []

/-- Python `tags_index[tag].append(note_id)`: append to the value list of
the key. -/
def appendToKey (ti : TagsIndex) (t note_id : String) : TagsIndex :=
  ti.map (fun p => if p.1 == t then (p.1, p.2 ++ [note_id]) else p)

/-- One iteration of the insertion loop of update_tags (lines 87-91):
create the key with an empty list when absent (dict insertion appends the
new key at the end), then append the id when not already present. -/
def addTag (ti : TagsIndex) (note_id t : String) : TagsIndex :=
  let ti' := if hasKey ti t then ti else ti ++ [(t, [])]
  if (getKey ti' t).contains note_id then ti' else appendToKey ti' t note_id

/-- Embedding of update_tags (lines 77-96): remove the id from every tag
list, insert it for every tag of the new list, drop empty-valued keys. -/
def update_tags (note_id : String) (tags : List String) (ti : TagsIndex) : TagsIndex :=
  let cleared := removeIdAll ti note_id
  let inserted := tags.foldl (fun acc tag => addTag acc note_id tag) cleared
  inserted.filter (fun p => !p.2.isEmpty)

/-! ### Note metadata and the persisted store -/

/-- One record of index.json. -/
structure NoteMeta where
  id : String
  title : String
  created : Nat
  modified : Nat
  subject : Option String
  tags : List String
  filename : String
deriving Repr, DecidableEq

/-- The notes directory: filename to file content, in creation order. -/
abbrev FileSys := List (String × String)

/-- Content of a file, none when the file does not exist. -/
def readFile (fs : FileSys) (name : String) : Option String :=
  match fs.find? (fun p => p.1 == name) with
  | some p => some p.2
  | none => none

/-- Model of os.path.exists inside the notes directory. -/
def fileExists (fs : FileSys) (name : String) : Bool := (readFile fs name).isSome

/-- Model of open(filepath, "w") followed by write: overwrite when present,
create otherwise. -/
def writeFile (fs : FileSys) (name content : String) : FileSys :=
  if fileExists fs name then fs.map (fun p => if p.1 == name then (p.1, content) else p)
  else fs ++ [(name, content)]

/-- Model of os.remove guarded by os.path.exists. -/
def removeFile (fs : FileSys) (name : String) : FileSys :=
  fs.filter (fun p => p.1 != name)

/-- The three persisted stores: index.json, tags.json and the note files. -/
structure NoteStore where
  index : List NoteMeta
  tagsIndex : TagsIndex
  files : FileSys
deriving Repr, DecidableEq

/-! ### add_note (lines 99-159) -/

/-- Python ", ".join(["#" + tag for tag in tags]). -/
def renderTags (tags : List String) : String :=
  String.intercalate ", " (tags.map (fun t => "#" ++ t))

/-- The formatted file body written by add_note (lines 140-145): header
(title line, date line, optional subject line, optional tags line), a blank
line, the raw content, a trailing newline. -/
def formattedContentAdd (title dateStr subject : String) (tags : List String)
    (content : String) : String :=
  "# " ++ title ++ "\n\n" ++ "Date: " ++ dateStr ++ "\n"
    ++ (if subject != "" && pyStrip subject != "" then "Subject: " ++ subject ++ "\n" else "")
    ++ (if !tags.isEmpty then "Tags: " ++ renderTags tags ++ "\n" else "")
    ++ "\n" ++ content ++ "\n"

/-- Embedding of add_note.  The wall clock values time.time() and the
rendered date string are passed in as ts and dateStr.  Returns the success
message and the updated persisted state. -/
def add_note (ts : Nat) (dateStr : String) (title content subject : String)
    (st : NoteStore) : String × NoteStore :=
  let note_id := mkNoteId ts dateStr title
  let filename := note_id ++ ".md"
  let tags := extract_tags content
  let metadata : NoteMeta :=
    { id := note_id, title := title, created := ts, modified := ts,
      subject := if subject != "" then some subject else none,
      tags := tags, filename := filename }
  let formatted := formattedContentAdd title dateStr subject tags content
  let files := writeFile st.files filename formatted
  let index := st.index ++ [metadata]
  let tagsIndex := update_tags note_id tags st.tagsIndex
  ("Note '" ++ title ++ "' saved with ID: " ++ note_id,
   { index := index, tagsIndex := tagsIndex, files := files })

/-! ### read_note (lines 162-199) -/

/-- Embedding of read_note: id lookup when the id argument is truthy,
otherwise case-insensitive title lookup when the title argument is truthy;
distinct messages for a missing index entry and a missing backing file. -/
def read_note (st : NoteStore) (note_id title : String) : String :=
  let note_meta : Option NoteMeta :=
    if pyTruthyStripped note_id then
      st.index.find? (fun n => n.id == note_id)
    else if pyTruthyStripped title then
      st.index.find? (fun n => pyLower n.title == pyLower title)
    else none
  match note_meta with
  | none => "Note not found. Please check the ID or title."
  | some meta =>
    match readFile st.files meta.filename with
    | none => "Note file not found: " ++ meta.filename
    | some content => content

/-! ### list_notes (lines 202-260): filters, sort, truncation -/

/-- The two filters of list_notes (lines 218-224): exact subject match and
tag membership through the tag index. -/
def list_notes_filtered (subject tag : String) (st : NoteStore) : List NoteMeta :=
  let index := st.index
  let index :=
    if pyTruthyStripped subject then index.filter (fun n => n.subject == some subject)
    else index
  if pyTruthyStripped tag then
    index.filter (fun n => (getKey st.tagsIndex tag).contains n.id)
  else index

/-- Stable insertion of one element into a list sorted by created
descending: the element goes before the first entry whose created value it
reaches or exceeds, hence after every earlier-listed equal entry. -/
def insertDesc (x : NoteMeta) : List NoteMeta → List NoteMeta
  | [] => [x]
  | y :: ys => if y.created ≤ x.created then x :: y :: ys else y :: insertDesc x ys

/-- Model of Python list.sort(key=created, reverse=True): a stable sort by
created descending. -/
def sortByCreatedDesc : List NoteMeta → List NoteMeta
  | [] => []
  | x :: xs => insertDesc x (sortByCreatedDesc xs)

/-- The entries rendered by list_notes, in rendering order: filter, stable
sort by created descending, truncate to limit. -/
def list_notes_entries (subject tag : String) (limit : Nat) (st : NoteStore) :
    List NoteMeta :=
  (sortByCreatedDesc (list_notes_filtered subject tag st)).take limit

/-! ### search_notes (lines 316-390) -/

/-- The content-scan loop of search_notes (lines 349-360): walk the index,
skip notes already collected, append a note when its file is readable and
contains the lowercased query; read failures skip the note. -/
def contentScan (files : FileSys) (q : String) :
    List NoteMeta → List NoteMeta → List NoteMeta
  | results, [] => results
  | results, n :: rest =>
    if results.contains n then contentScan files q results rest
    else
      match readFile files n.filename with
      | none => contentScan files q results rest
      | some c =>
        if containsStr (pyLower c) q then contentScan files q (results ++ [n]) rest
        else contentScan files q results rest

/-- The `results` list collected by search_notes, in the order the rendered
output enumerates it.  The query is lowercased first; a leading hash takes
the tag branch (tag index lookup, no file access), otherwise title matches
are collected then the content scan runs. -/
def search_notes_results (st : NoteStore) (query : String) : List NoteMeta :=
  let q := pyLower query
  match q.data with
  | '#' :: rest =>
    let tag_notes := getKey st.tagsIndex (String.mk rest)
    if tag_notes.isEmpty then []
    else st.index.filter (fun n => tag_notes.contains n.id)
  | _ =>
    let title_matches := st.index.filter (fun n => containsStr (pyLower n.title) q)
    contentScan st.files q title_matches st.index

/-! ### edit_note (lines 393-456) -/

/-- The formatted file body written by edit_note (lines 435-440): same
rendering as create but driven by the stored metadata; the subject line is
emitted for any non-empty stored subject. -/
def formattedContentEdit (meta : NoteMeta) (dateStr : String) (tags : List String)
    (content : String) : String :=
  "# " ++ meta.title ++ "\n\n" ++ "Date: " ++ dateStr ++ "\n"
    ++ (match meta.subject with
        | some s => if s != "" then "Subject: " ++ s ++ "\n" else ""
        | none => "")
    ++ (if !tags.isEmpty then "Tags: " ++ renderTags tags ++ "\n" else "")
    ++ "\n" ++ content ++ "\n"

/-- The index update loop of edit_note (lines 447-450): replace the first
entry carrying the id. -/
def replaceFirst : List NoteMeta → String → NoteMeta → List NoteMeta
  | [], _, _ => []
  | n :: rest, note_id, m =>
    if n.id == note_id then m :: rest else n :: replaceFirst rest note_id m

/-- Embedding of edit_note.  now is the int(time.time()) value; fmtDate
renders a created timestamp as its date string
(datetime.fromtimestamp(...).strftime("%Y-%m-%d")). -/
def edit_note (now : Nat) (fmtDate : Nat → String) (note_id new_content : String)
    (st : NoteStore) : String × NoteStore :=
  match st.index.find? (fun n => n.id == note_id) with
  | none => ("Note not found with ID: " ++ note_id, st)
  | some note_meta =>
    let tags := extract_tags new_content
    let note_meta' := { note_meta with modified := now, tags := tags }
    if !fileExists st.files note_meta.filename then
      ("Note file not found: " ++ note_meta.filename, st)
    else
      let date_str := fmtDate note_meta.created
      let formatted := formattedContentEdit note_meta' date_str tags new_content
      let files := writeFile st.files note_meta.filename formatted
      let index := replaceFirst st.index note_id note_meta'
      let tagsIndex := update_tags note_id tags st.tagsIndex
      ("Note '" ++ note_meta.title ++ "' updated successfully.",
       { index := index, tagsIndex := tagsIndex, files := files })

/-! ### delete_note (lines 459-495) -/

/-- Embedding of delete_note: remove the file when present, drop the entry
from the note index, remove the id from every tag list of the tag index.
The tag cleanup loop (lines 489-493) does not drop entries whose list
became empty. -/
def delete_note (note_id : String) (st : NoteStore) : String × NoteStore :=
  match st.index.find? (fun n => n.id == note_id) with
  | none => ("Note not found with ID: " ++ note_id, st)
  | some note_meta =>
    let files := removeFile st.files note_meta.filename
    let index := st.index.filter (fun n => n.id != note_id)
    let tagsIndex := removeIdAll st.tagsIndex note_id
    ("Note '" ++ note_meta.title ++ "' deleted successfully.",
     { index := index, tagsIndex := tagsIndex, files := files })

/-! ### A second slug definition, written from the wording of the spec -/

/-- Collapse every run of whitespace characters into a single hyphen.  The
fuel argument makes the recursion structural; fuel bounded below by the
input length never runs out. -/
def collapseWs : Nat → List Char → List Char
  | 0, _ => []
  | _, [] => []
  | fuel + 1, c :: rest =>
    if isSpaceChar c then '-' :: collapseWs fuel (rest.dropWhile isSpaceChar)
    else c :: collapseWs fuel rest

/-- The slug procedure as the spec words it: strip every character not in
[A-Za-z0-9_\s-], trim leading and trailing whitespace, collapse interior
whitespace runs to single hyphens, lowercase. -/
def specSlug (title : String) : String :=
  let kept := title.data.filter (fun c => isWordChar c || isSpaceChar c || c == '-')
  let stripped := (kept.dropWhile isSpaceChar).reverse.dropWhile isSpaceChar |>.reverse
  String.mk ((collapseWs stripped.length stripped).map Char.toLower)

/-! ### Helper lemmas: substring search -/

theorem listLeads_append (n s : List Char) : listLeads n (n ++ s) = true := by
  induction n with
  | nil => rfl
  | cons a as ih => simp [listLeads, ih]

theorem listOccurs_self_append (n s : List Char) : listOccurs n (n ++ s) = true := by
  cases n with
  | nil =>
    cases s with
    | nil => rfl
    | cons c t => simp [listOccurs, listLeads]
  | cons a as =>
    simp only [List.cons_append, listOccurs]
    have h : listLeads (a :: as) (a :: (as ++ s)) = true := listLeads_append (a :: as) s
    simp [h]

theorem listOccurs_parts (p n s : List Char) : listOccurs n (p ++ (n ++ s)) = true := by
  induction p with
  | nil => simpa using listOccurs_self_append n s
  | cons c p' ih => simp [listOccurs, ih]

theorem containsStr_of_parts (hay p needle s : String)
    (h : hay.data = p.data ++ (needle.data ++ s.data)) : containsStr hay needle = true := by
  unfold containsStr
  rw [h]
  exact listOccurs_parts p.data needle.data s.data

/-! ### Helper lemmas: strip, membership, file system -/

theorem mem_dropWhile_of_mem {p : Char → Bool} {l : List Char} {c : Char}
    (h : c ∈ l) (hc : p c = false) : c ∈ l.dropWhile p := by
  induction l with
  | nil => cases h
  | cons a t ih =>
    by_cases ha : p a
    · rw [List.dropWhile_cons_of_pos ha]
      cases h with
      | head => rw [hc] at ha; cases ha
      | tail _ ht => exact ih ht
    · rw [List.dropWhile_cons_of_neg ha]
      exact h

theorem pyStrip_ne_empty {s : String} {c : Char} (h : c ∈ s.data)
    (hc : isSpaceChar c = false) : pyStrip s ≠ "" := by
  intro he
  have hd : (((s.data.dropWhile isSpaceChar).reverse.dropWhile isSpaceChar).reverse) = [] := by
    have := congrArg String.data he
    simpa [pyStrip] using this
  have h1 : c ∈ s.data.dropWhile isSpaceChar := mem_dropWhile_of_mem h hc
  have h2 : c ∈ (s.data.dropWhile isSpaceChar).reverse := List.mem_reverse.mpr h1
  have h3 : c ∈ (s.data.dropWhile isSpaceChar).reverse.dropWhile isSpaceChar :=
    mem_dropWhile_of_mem h2 hc
  have h4 : c ∈ ((s.data.dropWhile isSpaceChar).reverse.dropWhile isSpaceChar).reverse :=
    List.mem_reverse.mpr h3
  rw [hd] at h4
  cases h4

theorem hyphen_mem_mkNoteId (ts : Nat) (dateStr title : String) :
    '-' ∈ (mkNoteId ts dateStr title).data := by
  simp [mkNoteId, String.data_append]

theorem pyTruthyStripped_mkNoteId (ts : Nat) (dateStr title : String) :
    pyTruthyStripped (mkNoteId ts dateStr title) = true := by
  have hmem := hyphen_mem_mkNoteId ts dateStr title
  have hne : mkNoteId ts dateStr title ≠ "" := by
    intro he
    rw [he] at hmem
    cases hmem
  have hst : pyStrip (mkNoteId ts dateStr title) ≠ "" :=
    pyStrip_ne_empty hmem (by decide)
  simp [pyTruthyStripped, hne, hst]

theorem find?_append_singleton {α : Type} (p : α → Bool) (l : List α) (y : α)
    (h : ∀ x ∈ l, p x = false) (hy : p y = true) : (l ++ [y]).find? p = some y := by
  induction l with
  | nil => simp [List.find?, hy]
  | cons a t ih =>
    have ha : p a = false := h a (List.mem_cons_self a t)
    simp only [List.cons_append, List.find?, ha]
    exact ih (fun x hx => h x (List.mem_cons_of_mem a hx))

theorem readFile_writeFile_map (fs : FileSys) (name content : String)
    (h : fileExists fs name = true) :
    readFile (fs.map (fun p => if p.1 == name then (p.1, content) else p)) name
      = some content := by
  induction fs with
  | nil => simp [fileExists, readFile, List.find?] at h
  | cons a t ih =>
    by_cases ha : a.1 == name
    · simp [readFile, List.find?, ha]
    · have ht : fileExists t name = true := by
        simpa [fileExists, readFile, List.find?, ha] using h
      have := ih ht
      simpa [readFile, List.find?, ha] using this

theorem readFile_writeFile (fs : FileSys) (name content : String) :
    readFile (writeFile fs name content) name = some content := by
  by_cases h : fileExists fs name = true
  · rw [writeFile, if_pos h]
    exact readFile_writeFile_map fs name content h
  · rw [writeFile, if_neg h]
    have hn : readFile fs name = none := by
      cases hr : readFile fs name with
      | none => rfl
      | some c => exact absurd (by simp [fileExists, hr]) h
    have hfn : fs.find? (fun p => p.1 == name) = none := by
      unfold readFile at hn
      cases hf : fs.find? (fun p => p.1 == name) with
      | none => rfl
      | some q => rw [hf] at hn; cases hn
    unfold readFile
    rw [List.find?_append, hfn]
    simp [List.find?]

theorem read_note_after_add (ts : Nat) (dateStr title content subject : String)
    (st : NoteStore)
    (hfresh : ∀ n ∈ st.index, n.id ≠ mkNoteId ts dateStr title) :
    read_note (add_note ts dateStr title content subject st).2
        (mkNoteId ts dateStr title) "" =
      formattedContentAdd title dateStr subject (extract_tags content) content := by
  have htruthy := pyTruthyStripped_mkNoteId ts dateStr title
  have hfind :
      ((add_note ts dateStr title content subject st).2.index).find?
          (fun n => n.id == mkNoteId ts dateStr title) =
        some { id := mkNoteId ts dateStr title, title := title, created := ts,
               modified := ts,
               subject := if subject != "" then some subject else none,
               tags := extract_tags content,
               filename := mkNoteId ts dateStr title ++ ".md" } := by
    simp only [add_note]
    apply find?_append_singleton
    · intro x hx
      have := hfresh x hx
      simpa using this
    · simp
  have hfile :
      readFile ((add_note ts dateStr title content subject st).2.files)
          (mkNoteId ts dateStr title ++ ".md") =
        some (formattedContentAdd title dateStr subject (extract_tags content) content) := by
    simp only [add_note]
    exact readFile_writeFile st.files (mkNoteId ts dateStr title ++ ".md")
      (formattedContentAdd title dateStr subject (extract_tags content) content)
  rw [read_note, if_pos htruthy, hfind]
  simp only
  rw [hfile]

/-- C3: after add_note(title, content), reading the note back through the
returned id yields a string containing the original content body, the
title header line, the date line, and, when rendered, the subject and
tags lines. -/
theorem C3_add_read_roundtrip (ts : Nat) (dateStr title content subject : String)
    (st : NoteStore) (htitle : title ≠ "") (hcontent : content ≠ "")
    (hfresh : ∀ n ∈ st.index, n.id ≠ mkNoteId ts dateStr title) :
    containsStr (read_note (add_note ts dateStr title content subject st).2
        (mkNoteId ts dateStr title) "") content = true ∧
    containsStr (read_note (add_note ts dateStr title content subject st).2
        (mkNoteId ts dateStr title) "") ("# " ++ title) = true ∧
    containsStr (read_note (add_note ts dateStr title content subject st).2
        (mkNoteId ts dateStr title) "") ("Date: " ++ dateStr) = true ∧
    (subject ≠ "" → pyStrip subject ≠ "" →
      containsStr (read_note (add_note ts dateStr title content subject st).2
        (mkNoteId ts dateStr title) "") ("Subject: " ++ subject) = true) ∧
    (extract_tags content ≠ [] →
      containsStr (read_note (add_note ts dateStr title content subject st).2
        (mkNoteId ts dateStr title) "")
        ("Tags: " ++ renderTags (extract_tags content)) = true) := by
  rw [read_note_after_add ts dateStr title content subject st hfresh]
  refine ⟨?_, ?_, ?_, ?_, ?_⟩
  · exact containsStr_of_parts _
      ("# " ++ title ++ "\n\n" ++ "Date: " ++ dateStr ++ "\n"
        ++ (if subject != "" && pyStrip subject != "" then "Subject: " ++ subject ++ "\n" else "")
        ++ (if !(extract_tags content).isEmpty
            then "Tags: " ++ renderTags (extract_tags content) ++ "\n" else "")
        ++ "\n") _ "\n"
      (by simp [formattedContentAdd, String.data_append, List.append_assoc])
  · exact containsStr_of_parts _ ""  _
      ("\n\n" ++ "Date: " ++ dateStr ++ "\n"
        ++ (if subject != "" && pyStrip subject != "" then "Subject: " ++ subject ++ "\n" else "")
        ++ (if !(extract_tags content).isEmpty
            then "Tags: " ++ renderTags (extract_tags content) ++ "\n" else "")
        ++ "\n" ++ content ++ "\n")
      (by simp [formattedContentAdd, String.data_append, List.append_assoc])
  · exact containsStr_of_parts _ ("# " ++ title ++ "\n\n") _
      ("\n"
        ++ (if subject != "" && pyStrip subject != "" then "Subject: " ++ subject ++ "\n" else "")
        ++ (if !(extract_tags content).isEmpty
            then "Tags: " ++ renderTags (extract_tags content) ++ "\n" else "")
        ++ "\n" ++ content ++ "\n")
      (by simp [formattedContentAdd, String.data_append, List.append_assoc])
  · intro hs1 hs2
    exact containsStr_of_parts _ ("# " ++ title ++ "\n\n" ++ "Date: " ++ dateStr ++ "\n") _
      ("\n"
        ++ (if !(extract_tags content).isEmpty
            then "Tags: " ++ renderTags (extract_tags content) ++ "\n" else "")
        ++ "\n" ++ content ++ "\n")
      (by simp [formattedContentAdd, String.data_append, List.append_assoc,
                bne_iff_ne, hs1, hs2])
  · intro ht
    exact containsStr_of_parts _
      ("# " ++ title ++ "\n\n" ++ "Date: " ++ dateStr ++ "\n"
        ++ (if subject != "" && pyStrip subject != "" then "Subject: " ++ subject ++ "\n" else "")) _
      ("\n" ++ "\n" ++ content ++ "\n")
      (by simp [formattedContentAdd, String.data_append, List.append_assoc, ht])

/-- Witness for C3 at a concrete input: empty starting store, title
"My Note", content "hello #tag", subject "Work". -/
theorem C3_add_read_roundtrip_witness :
    (("My Note" : String) ≠ "" ∧ ("hello #tag" : String) ≠ "" ∧
      (∀ n ∈ (⟨[], [], []⟩ : NoteStore).index, n.id ≠ mkNoteId 5 "2025-01-01" "My Note")) ∧
    (containsStr (read_note (add_note 5 "2025-01-01" "My Note" "hello #tag" "Work"
        ⟨[], [], []⟩).2 (mkNoteId 5 "2025-01-01" "My Note") "") "hello #tag" = true ∧
    containsStr (read_note (add_note 5 "2025-01-01" "My Note" "hello #tag" "Work"
        ⟨[], [], []⟩).2 (mkNoteId 5 "2025-01-01" "My Note") "") ("# " ++ "My Note") = true ∧
    containsStr (read_note (add_note 5 "2025-01-01" "My Note" "hello #tag" "Work"
        ⟨[], [], []⟩).2 (mkNoteId 5 "2025-01-01" "My Note") "") ("Date: " ++ "2025-01-01") = true ∧
    (("Work" : String) ≠ "" → pyStrip "Work" ≠ "" →
      containsStr (read_note (add_note 5 "2025-01-01" "My Note" "hello #tag" "Work"
        ⟨[], [], []⟩).2 (mkNoteId 5 "2025-01-01" "My Note") "") ("Subject: " ++ "Work") = true) ∧
    (extract_tags "hello #tag" ≠ [] →
      containsStr (read_note (add_note 5 "2025-01-01" "My Note" "hello #tag" "Work"
        ⟨[], [], []⟩).2 (mkNoteId 5 "2025-01-01" "My Note") "")
        ("Tags: " ++ renderTags (extract_tags "hello #tag")) = true)) :=
  ⟨⟨by decide, by decide, by simp⟩,
   C3_add_read_roundtrip 5 "2025-01-01" "My Note" "hello #tag" "Work" ⟨[], [], []⟩
     (by decide) (by decide) (by simp)⟩

/-! ### Helper lemmas: the slug character class -/

theorem isWordChar_toLower (c : Char) (h : isWordChar c = true) :
    isWordChar c.toLower = true := by
  have hb : ∀ m, m < 123 → 97 ≤ m → isWordChar (Char.ofNat m) = true := by decide
  simp only [Char.toLower]
  split
  · rename_i hc
    exact hb (c.toNat + 32) (by omega) (by omega)
  · exact h

theorem toLower_of_space (c : Char) (h : isSpaceChar c = true) :
    Char.toLower c = c := by
  simp only [isSpaceChar, Bool.or_eq_true, beq_iff_eq] at h
  rcases h with ((((h | h) | h) | h) | h) | h <;> subst h <;> decide

theorem safe_title_char_class (title : String) :
    ∀ c ∈ (safe_title title).data,
      (isWordChar c || c == '-' || (isSpaceChar c && !(c == ' '))) = true := by
  intro c hc
  simp only [safe_title] at hc
  rw [List.mem_map] at hc
  obtain ⟨c₂, hc₂, rfl⟩ := hc
  rw [List.mem_map] at hc₂
  obtain ⟨c₁, hc₁, rfl⟩ := hc₂
  have hkept : c₁ ∈ title.data.filter
      (fun c => isWordChar c || isSpaceChar c || c == '-') := by
    rw [List.mem_reverse] at hc₁
    have := List.dropWhile_subset (p := isSpaceChar) hc₁
    rw [List.mem_reverse] at this
    exact List.dropWhile_subset (p := isSpaceChar) this
  have hclass := (List.mem_filter.mp hkept).2
  simp only [Bool.or_eq_true] at hclass
  by_cases hsp : c₁ == ' '
  · have : c₁ = ' ' := eq_of_beq hsp
    subst this
    decide
  · rw [if_neg hsp]
    rcases hclass with (hw | hs) | hd
    · simp [isWordChar_toLower c₁ hw]
    · rw [toLower_of_space c₁ hs]
      simp [hs, hsp]
    · have : c₁ = '-' := eq_of_beq hd
      subst this
      decide

/-- C4 counterexample: the claim says interior whitespace runs collapse to
single hyphens; on the title "a  b" (two interior spaces) the code yields
"a--b" while the claimed procedure yields "a-b". -/
theorem C4_slug_counterexample :
    safe_title "a  b" = "a--b" ∧ specSlug "a  b" = "a-b" ∧
    safe_title "a  b" ≠ specSlug "a  b" := by decide

/-- C4 amended: the slug keeps only word characters, hyphens and non-space
whitespace, contains no path separator, no space, and no punctuation other
than hyphen and underscore; each space character is replaced by its own
hyphen, so consecutive interior spaces yield consecutive hyphens, as the
concrete conjunct shows. -/
theorem C4_slug_amended (title : String) :
    ((safe_title title).data.all
      (fun c => isWordChar c || c == '-' || (isSpaceChar c && !(c == ' '))) = true) ∧
    '/' ∉ (safe_title title).data ∧
    '\\' ∉ (safe_title title).data ∧
    ' ' ∉ (safe_title title).data ∧
    safe_title "a  b" = "a--b" := by
  have hmain := safe_title_char_class title
  refine ⟨List.all_eq_true.mpr hmain, ?_, ?_, ?_, by decide⟩
  · exact fun hm => absurd (hmain '/' hm) (by decide)
  · exact fun hm => absurd (hmain '\\' hm) (by decide)
  · exact fun hm => absurd (hmain ' ' hm) (by decide)

/-! ### C6: add_note input validation -/

/-- C6 counterexample: with empty title and empty content, add_note still
creates a note: the index gains an entry, the file is written and the
success message is returned. -/
theorem C6_validation_counterexample :
    ((add_note 7 "2025-01-02" "" "" "" ⟨[], [], []⟩).2.index.length = 1) ∧
    (fileExists (add_note 7 "2025-01-02" "" "" "" ⟨[], [], []⟩).2.files
      "2025-01-02--7.md" = true) ∧
    ((add_note 7 "2025-01-02" "" "" "" ⟨[], [], []⟩).1
      = "Note '' saved with ID: 2025-01-02--7") := by decide

/-- C6 amended: add_note performs no emptiness validation: for every title
and content, empty ones included, the note is created — the index always
grows by exactly one entry, the new last entry carries the given title and
a subject stored only when non-empty, and the note file exists afterwards. -/
theorem C6_validation_amended (ts : Nat) (dateStr title content subject : String)
    (st : NoteStore) :
    ((add_note ts dateStr title content subject st).2.index.length
      = st.index.length + 1) ∧
    (fileExists (add_note ts dateStr title content subject st).2.files
      (mkNoteId ts dateStr title ++ ".md") = true) ∧
    ((add_note ts dateStr title content subject st).2.index.getLast?
      = some { id := mkNoteId ts dateStr title, title := title, created := ts,
               modified := ts,
               subject := if subject != "" then some subject else none,
               tags := extract_tags content,
               filename := mkNoteId ts dateStr title ++ ".md" }) := by
  refine ⟨by simp [add_note], ?_, ?_⟩
  · simp only [add_note, fileExists]
    rw [readFile_writeFile]
    rfl
  · simp [add_note]

/-! ### C1: pruning of empty-valued tag index entries -/

/-- C1 counterexample: deleting the only note carrying tag "a" leaves the
tag index with the empty-valued key "a", so the persisted mapping does
contain an empty-value key after a successful delete_note. -/
theorem C1_prune_counterexample :
    ((delete_note "n1"
        ⟨[⟨"n1", "T", 1, 1, none, ["a"], "n1.md"⟩],
         [("a", ["n1"])], [("n1.md", "x")]⟩).2.tagsIndex = [("a", [])]) ∧
    ((delete_note "n1"
        ⟨[⟨"n1", "T", 1, 1, none, ["a"], "n1.md"⟩],
         [("a", ["n1"])], [("n1.md", "x")]⟩).2.tagsIndex.any
      (fun p => p.2.isEmpty) = true) := by decide

theorem update_tags_no_empty (note_id : String) (tags : List String) (ti : TagsIndex) :
    (update_tags note_id tags ti).all (fun p => !p.2.isEmpty) = true := by
  unfold update_tags
  apply List.all_eq_true.mpr
  intro p hp
  exact (List.mem_filter.mp hp).2

/-- C1 amended: add_note and edit_note prune empty-valued tag entries
(through update_tags), but delete_note never removes a key at all — its
key list is exactly preserved — so an entry emptied by the deletion stays
behind as an empty-value key. -/
theorem C1_prune_amended :
    (∀ (ts : Nat) (dateStr title content subject : String) (st : NoteStore),
      (add_note ts dateStr title content subject st).2.tagsIndex.all
        (fun p => !p.2.isEmpty) = true) ∧
    (∀ (now : Nat) (fmtDate : Nat → String) (note_id new_content : String)
        (st : NoteStore),
      (edit_note now fmtDate note_id new_content st).2.tagsIndex.all
          (fun p => !p.2.isEmpty) = true ∨
        (edit_note now fmtDate note_id new_content st).2 = st) ∧
    (∀ (note_id : String) (st : NoteStore),
      ((delete_note note_id st).2.tagsIndex).map Prod.fst
        = st.tagsIndex.map Prod.fst) := by
  refine ⟨?_, ?_, ?_⟩
  · intro ts dateStr title content subject st
    simp only [add_note]
    exact update_tags_no_empty _ _ _
  · intro now fmtDate note_id new_content st
    cases hf : st.index.find? (fun n => n.id == note_id) with
    | none => right; simp [edit_note, hf]
    | some m =>
      by_cases hex : fileExists st.files m.filename
      · left
        simp only [edit_note, hf, hex, Bool.not_true, Bool.false_eq_true, if_false]
        exact update_tags_no_empty _ _ _
      · right
        simp [edit_note, hf, hex]
  · intro note_id st
    cases hf : st.index.find? (fun n => n.id == note_id) with
    | none => simp [delete_note, hf]
    | some m => simp [delete_note, hf, removeIdAll]

/-! ### C8: read_note lookup precedence and distinct error outcomes -/

/-- C8: a truthy id makes read_note ignore the title entirely; a missing
index entry yields the not-found message; an index entry whose backing
file is absent yields the file-not-found message; and the two messages
are different strings for every filename. -/
theorem C8_read_note_precedence_errors (st : NoteStore) (note_id t1 t2 : String)
    (hid : pyTruthyStripped note_id = true) :
    (read_note st note_id t1 = read_note st note_id t2) ∧
    (st.index.find? (fun n => n.id == note_id) = none →
      read_note st note_id t1 = "Note not found. Please check the ID or title.") ∧
    (∀ meta, st.index.find? (fun n => n.id == note_id) = some meta →
      readFile st.files meta.filename = none →
      read_note st note_id t1 = "Note file not found: " ++ meta.filename) ∧
    (∀ f : String,
      "Note file not found: " ++ f ≠ "Note not found. Please check the ID or title.") := by
  refine ⟨by simp [read_note, hid], ?_, ?_, ?_⟩
  · intro h
    simp [read_note, hid, h]
  · intro meta hf hr
    simp [read_note, hid, hf, hr]
  · intro f h
    have h5 := congrArg (fun s => s.data[5]?) h
    simp only [String.data_append] at h5
    rw [List.getElem?_append_left (by decide)] at h5
    exact absurd h5 (by decide)

/-- Witness for C8 at a concrete store: id "n1" is truthy, and the two
read_note calls with different titles agree. -/
theorem C8_read_note_precedence_errors_witness :
    pyTruthyStripped "n1" = true ∧
    read_note ⟨[⟨"n1", "T", 1, 1, none, [], "n1.md"⟩], [], [("n1.md", "x")]⟩ "n1" "A"
      = read_note ⟨[⟨"n1", "T", 1, 1, none, [], "n1.md"⟩], [], [("n1.md", "x")]⟩ "n1" "B" :=
  ⟨by decide,
   (C8_read_note_precedence_errors
     ⟨[⟨"n1", "T", 1, 1, none, [], "n1.md"⟩], [], [("n1.md", "x")]⟩ "n1" "A" "B"
     (by decide)).1⟩

/-! ### C10: edit_note on an index entry whose file is missing -/

/-- C10: when the note is in the index but its backing file is absent,
edit_note returns the file-not-found outcome and the persisted state is
returned untouched: note index, tag index and files all unchanged. -/
theorem C10_edit_missing_file (now : Nat) (fmtDate : Nat → String)
    (note_id new_content : String) (st : NoteStore) (meta : NoteMeta)
    (hfind : st.index.find? (fun n => n.id == note_id) = some meta)
    (hfile : readFile st.files meta.filename = none) :
    edit_note now fmtDate note_id new_content st
      = ("Note file not found: " ++ meta.filename, st) := by
  have hex : fileExists st.files meta.filename = false := by
    simp [fileExists, hfile]
  simp [edit_note, hfind, hex]

/-- Witness for C10: one note in the index, no files on disk. -/
theorem C10_edit_missing_file_witness :
    ((⟨[⟨"n1", "T", 1, 1, none, [], "n1.md"⟩], [], []⟩ : NoteStore).index.find?
        (fun n => n.id == "n1") = some ⟨"n1", "T", 1, 1, none, [], "n1.md"⟩) ∧
    (readFile (⟨[⟨"n1", "T", 1, 1, none, [], "n1.md"⟩], [], []⟩ : NoteStore).files
        "n1.md" = none) ∧
    (edit_note 9 (fun _ => "1970-01-01") "n1" "new"
        ⟨[⟨"n1", "T", 1, 1, none, [], "n1.md"⟩], [], []⟩
      = ("Note file not found: " ++ "n1.md",
         ⟨[⟨"n1", "T", 1, 1, none, [], "n1.md"⟩], [], []⟩)) :=
  ⟨by decide, by decide,
   C10_edit_missing_file 9 (fun _ => "1970-01-01") "n1" "new"
     ⟨[⟨"n1", "T", 1, 1, none, [], "n1.md"⟩], [], []⟩
     ⟨"n1", "T", 1, 1, none, [], "n1.md"⟩ (by decide) (by decide)⟩

/-! ### C9: edit_note frame conditions on the note index -/

theorem zip_self_eq (l : List NoteMeta) : ∀ p ∈ l.zip l, p.2 = p.1 := by
  induction l with
  | nil => intro p hp; cases hp
  | cons a t ih =>
    intro p hp
    cases hp with
    | head => rfl
    | tail _ h => exact ih p h

theorem replaceFirst_length (l : List NoteMeta) (note_id : String) (m : NoteMeta) :
    (replaceFirst l note_id m).length = l.length := by
  induction l with
  | nil => rfl
  | cons n rest ih =>
    by_cases hn : n.id == note_id
    · simp [replaceFirst, hn]
    · simp [replaceFirst, hn, ih]

theorem replaceFirst_zip (l : List NoteMeta) (note_id : String) (meta m : NoteMeta)
    (hfind : l.find? (fun n => n.id == note_id) = some meta) :
    ∀ p ∈ l.zip (replaceFirst l note_id m),
      (p.1.id ≠ note_id → p.2 = p.1) ∧ (p.2 = p.1 ∨ (p.1 = meta ∧ p.2 = m)) := by
  induction l with
  | nil => intro p hp; cases hp
  | cons n rest ih =>
    by_cases hn : (fun x : NoteMeta => x.id == note_id) n
    · have hm : meta = n := by
        rw [List.find?_cons_of_pos rest hn] at hfind
        exact (Option.some.inj hfind).symm
      intro p hp
      rw [replaceFirst, if_pos hn] at hp
      cases hp with
      | head =>
        constructor
        · intro hne
          exact absurd (eq_of_beq hn) hne
        · right
          exact ⟨hm.symm, rfl⟩
      | tail _ h =>
        have := zip_self_eq rest p h
        exact ⟨fun _ => this, Or.inl this⟩
    · have hrest : rest.find? (fun x => x.id == note_id) = some meta := by
        rwa [List.find?_cons_of_neg rest hn] at hfind
      intro p hp
      rw [replaceFirst, if_neg hn] at hp
      cases hp with
      | head => exact ⟨fun _ => rfl, Or.inl rfl⟩
      | tail _ h => exact ih hrest p h

/-- C9: a successful edit preserves the index length, never alters the id,
created, filename, title or subject field of any entry (the edited one
included), and leaves every entry whose id differs from the edited id
exactly as it was. -/
theorem C9_edit_frame (now : Nat) (fmtDate : Nat → String)
    (note_id new_content : String) (st : NoteStore) (meta : NoteMeta)
    (hfind : st.index.find? (fun n => n.id == note_id) = some meta)
    (hfile : fileExists st.files meta.filename = true) :
    ((edit_note now fmtDate note_id new_content st).2.index.length
       = st.index.length) ∧
    (∀ p ∈ st.index.zip (edit_note now fmtDate note_id new_content st).2.index,
       p.2.id = p.1.id ∧ p.2.created = p.1.created ∧ p.2.filename = p.1.filename ∧
       p.2.title = p.1.title ∧ p.2.subject = p.1.subject) ∧
    (∀ p ∈ st.index.zip (edit_note now fmtDate note_id new_content st).2.index,
       p.1.id ≠ note_id → p.2 = p.1) := by
  have hidx : (edit_note now fmtDate note_id new_content st).2.index
      = replaceFirst st.index note_id
          { meta with modified := now, tags := extract_tags new_content } := by
    simp [edit_note, hfind, hfile]
  rw [hidx]
  have hz := replaceFirst_zip st.index note_id meta
    { meta with modified := now, tags := extract_tags new_content } hfind
  refine ⟨replaceFirst_length st.index note_id _, ?_, ?_⟩
  · intro p hp
    rcases (hz p hp).2 with he | ⟨h1, h2⟩
    · rw [he]
      exact ⟨rfl, rfl, rfl, rfl, rfl⟩
    · rw [h1, h2]
      exact ⟨rfl, rfl, rfl, rfl, rfl⟩
  · intro p hp
    exact (hz p hp).1

/-- Witness for C9: two notes in the index, the edited note's file exists. -/
theorem C9_edit_frame_witness :
    ((⟨[⟨"n1", "T", 1, 1, none, [], "n1.md"⟩, ⟨"n2", "U", 2, 2, none, [], "n2.md"⟩],
        [], [("n1.md", "x")]⟩ : NoteStore).index.find? (fun n => n.id == "n1")
      = some ⟨"n1", "T", 1, 1, none, [], "n1.md"⟩) ∧
    (fileExists (⟨[⟨"n1", "T", 1, 1, none, [], "n1.md"⟩,
        ⟨"n2", "U", 2, 2, none, [], "n2.md"⟩], [], [("n1.md", "x")]⟩ : NoteStore).files
        "n1.md" = true) ∧
    ((edit_note 9 (fun _ => "1970-01-01") "n1" "new #t"
        ⟨[⟨"n1", "T", 1, 1, none, [], "n1.md"⟩, ⟨"n2", "U", 2, 2, none, [], "n2.md"⟩],
         [], [("n1.md", "x")]⟩).2.index.length
      = (⟨[⟨"n1", "T", 1, 1, none, [], "n1.md"⟩, ⟨"n2", "U", 2, 2, none, [], "n2.md"⟩],
          [], [("n1.md", "x")]⟩ : NoteStore).index.length) :=
  ⟨by decide, by decide,
   (C9_edit_frame 9 (fun _ => "1970-01-01") "n1" "new #t"
     ⟨[⟨"n1", "T", 1, 1, none, [], "n1.md"⟩, ⟨"n2", "U", 2, 2, none, [], "n2.md"⟩],
      [], [("n1.md", "x")]⟩
     ⟨"n1", "T", 1, 1, none, [], "n1.md"⟩ (by decide) (by decide)).1⟩

/-! ### C7: list_notes ordering, stability, truncation -/

theorem insertDesc_perm (x : NoteMeta) (l : List NoteMeta) :
    (insertDesc x l).Perm (x :: l) := by
  induction l with
  | nil => exact List.Perm.refl _
  | cons y ys ih =>
    by_cases h : y.created ≤ x.created
    · rw [insertDesc, if_pos h]
    · rw [insertDesc, if_neg h]
      exact (List.Perm.cons y ih).trans (List.Perm.swap x y ys)

theorem sortByCreatedDesc_perm (l : List NoteMeta) : (sortByCreatedDesc l).Perm l := by
  induction l with
  | nil => exact List.Perm.refl _
  | cons x xs ih =>
    exact (insertDesc_perm x (sortByCreatedDesc xs)).trans (List.Perm.cons x ih)

theorem mem_insertDesc {z x : NoteMeta} {l : List NoteMeta} :
    z ∈ insertDesc x l ↔ z = x ∨ z ∈ l := by
  rw [(insertDesc_perm x l).mem_iff]
  simp

theorem insertDesc_pairwise (x : NoteMeta) (l : List NoteMeta)
    (h : l.Pairwise (fun a b => b.created ≤ a.created)) :
    (insertDesc x l).Pairwise (fun a b => b.created ≤ a.created) := by
  induction l with
  | nil => simp [insertDesc]
  | cons y ys ih =>
    rcases List.pairwise_cons.mp h with ⟨hy, hys⟩
    by_cases hle : y.created ≤ x.created
    · rw [insertDesc, if_pos hle]
      refine List.pairwise_cons.mpr ⟨?_, h⟩
      intro z hz
      rcases List.mem_cons.mp hz with rfl | hz'
      · exact hle
      · exact le_trans (hy z hz') hle
    · rw [insertDesc, if_neg hle]
      refine List.pairwise_cons.mpr ⟨?_, ih hys⟩
      intro z hz
      rcases mem_insertDesc.mp hz with rfl | hz'
      · exact le_of_not_le hle
      · exact hy z hz'

theorem sortByCreatedDesc_pairwise (l : List NoteMeta) :
    (sortByCreatedDesc l).Pairwise (fun a b => b.created ≤ a.created) := by
  induction l with
  | nil => exact List.Pairwise.nil
  | cons x xs ih => exact insertDesc_pairwise x _ ih

theorem filter_insertDesc (c : Nat) (x : NoteMeta) (l : List NoteMeta) :
    (insertDesc x l).filter (fun n => n.created == c)
      = (x :: l).filter (fun n => n.created == c) := by
  induction l with
  | nil => rfl
  | cons y ys ih =>
    by_cases hle : y.created ≤ x.created
    · rw [insertDesc, if_pos hle]
    · rw [insertDesc, if_neg hle]
      have hlt : x.created < y.created := Nat.lt_of_not_le hle
      by_cases hx : x.created == c
      · have hxe : x.created = c := eq_of_beq hx
        have hy : (y.created == c) = false := by
          apply beq_eq_false_iff_ne.mpr
          omega
        simp [List.filter_cons, hx, hy, ih]
      · simp [List.filter_cons, hx, ih]

theorem filter_sortByCreatedDesc (c : Nat) (l : List NoteMeta) :
    (sortByCreatedDesc l).filter (fun n => n.created == c)
      = l.filter (fun n => n.created == c) := by
  induction l with
  | nil => rfl
  | cons x xs ih =>
    rw [sortByCreatedDesc, filter_insertDesc]
    simp [List.filter_cons, ih]

theorem list_notes_filtered_sublist (subject tag : String) (st : NoteStore) :
    (list_notes_filtered subject tag st).Sublist st.index := by
  unfold list_notes_filtered
  by_cases h1 : pyTruthyStripped subject = true
  · by_cases h2 : pyTruthyStripped tag = true
    · simp only [h1, h2, if_pos]
      exact (List.filter_sublist _).trans (List.filter_sublist _)
    · simp only [h1, if_pos, h2, if_neg]
      exact List.filter_sublist _
  · by_cases h2 : pyTruthyStripped tag = true
    · simp only [h1, if_neg, h2, if_pos]
      exact List.filter_sublist _
    · simp only [h1, h2, if_neg]
      exact List.Sublist.refl _

/-- C7: the rendered list is sorted by created descending; the sorted list
is a permutation of the filtered entries; ties keep their filtered order
(entries of any fixed created value appear exactly as they do in the
filtered list, which itself preserves stored index order); and the output
is the limit-prefix of the sorted list. -/
theorem C7_list_notes_sort (subject tag : String) (limit : Nat) (st : NoteStore) :
    ((list_notes_entries subject tag limit st).Pairwise
      (fun a b => b.created ≤ a.created)) ∧
    ((sortByCreatedDesc (list_notes_filtered subject tag st)).Perm
      (list_notes_filtered subject tag st)) ∧
    (∀ c, (sortByCreatedDesc (list_notes_filtered subject tag st)).filter
        (fun n => n.created == c)
      = (list_notes_filtered subject tag st).filter (fun n => n.created == c)) ∧
    ((list_notes_filtered subject tag st).Sublist st.index) ∧
    (list_notes_entries subject tag limit st
      = (sortByCreatedDesc (list_notes_filtered subject tag st)).take limit) := by
  refine ⟨?_, sortByCreatedDesc_perm _, fun c => filter_sortByCreatedDesc c _,
    list_notes_filtered_sublist subject tag st, rfl⟩
  exact List.Pairwise.sublist (List.take_sublist limit _) (sortByCreatedDesc_pairwise _)

/-! ### C5: tag search -/

/-- C5 counterexample: the note carries tag "Foo" (extract_tags preserves
case) and the tag index maps "Foo" to it, yet search_notes("#Foo") returns
nothing, because the whole query is lowercased before the tag lookup. -/
theorem C5_tag_search_counterexample :
    (search_notes_results
      ⟨[⟨"i1", "T", 1, 1, none, ["Foo"], "i1.md"⟩], [("Foo", ["i1"])], []⟩
      "#Foo" = []) ∧
    ("Foo" ∈ (⟨"i1", "T", 1, 1, none, ["Foo"], "i1.md"⟩ : NoteMeta).tags) ∧
    (⟨"i1", "T", 1, 1, none, ["Foo"], "i1.md"⟩ : NoteMeta)
      ∈ (⟨[⟨"i1", "T", 1, 1, none, ["Foo"], "i1.md"⟩], [("Foo", ["i1"])], []⟩
          : NoteStore).index := by
  refine ⟨by decide, by decide, by decide⟩

/-- C5 amended: for a query starting with the hash character, the result
does not depend on the file contents (no content scan), preserves index
order, and contains exactly the index entries whose id belongs to the tag
index entry named by the lowercased remainder of the query. -/
theorem C5_tag_search_amended (st : NoteStore) (query : String)
    (hq : query.data.head? = some '#') :
    (∀ fs : FileSys, search_notes_results ⟨st.index, st.tagsIndex, fs⟩ query
        = search_notes_results st query) ∧
    ((search_notes_results st query).Sublist st.index) ∧
    (∀ n, n ∈ search_notes_results st query ↔
      n ∈ st.index ∧
        n.id ∈ getKey st.tagsIndex (String.mk ((pyLower query).data.drop 1))) := by
  obtain ⟨t, ht⟩ : ∃ t, query.data = '#' :: t := by
    cases hd : query.data with
    | nil => rw [hd] at hq; cases hq
    | cons c t' =>
      rw [hd] at hq
      exact ⟨t', by rw [Option.some.inj hq]⟩
  have h35 : Char.toLower '#' = '#' := by decide
  have hdata : (pyLower query).data = '#' :: t.map Char.toLower := by
    simp [pyLower, ht, h35]
  have hdrop : (pyLower query).data.drop 1 = t.map Char.toLower := by
    rw [hdata]
    rfl
  refine ⟨?_, ?_, ?_⟩
  · intro fs
    simp only [search_notes_results, hdata]
  · simp only [search_notes_results, hdata]
    by_cases he : (getKey st.tagsIndex (String.mk (t.map Char.toLower))).isEmpty = true
    · simp only [he, if_pos]
      exact List.nil_sublist _
    · simp only [he, if_neg]
      exact List.filter_sublist _
  · intro n
    rw [hdrop]
    simp only [search_notes_results, hdata]
    by_cases he : (getKey st.tagsIndex (String.mk (t.map Char.toLower))).isEmpty = true
    · simp only [he, if_pos]
      have : getKey st.tagsIndex (String.mk (t.map Char.toLower)) = [] :=
        List.isEmpty_iff.mp he
      simp [this]
    · simp only [he, Bool.false_eq_true, if_false]
      rw [List.mem_filter]
      constructor
      · rintro ⟨h1, h2⟩
        exact ⟨h1, List.elem_iff.mp h2⟩
      · rintro ⟨h1, h2⟩
        exact ⟨h1, List.elem_iff.mpr h2⟩

/-- Witness for C5 at a concrete store: query "#b", one note tagged b and
one not. -/
theorem C5_tag_search_amended_witness :
    ("#b".data.head? = some '#') ∧
    (∀ n, n ∈ search_notes_results
        ⟨[⟨"i1", "T", 1, 1, none, ["b"], "i1.md"⟩,
          ⟨"i2", "U", 2, 2, none, [], "i2.md"⟩], [("b", ["i1"])], []⟩ "#b" ↔
      n ∈ (⟨[⟨"i1", "T", 1, 1, none, ["b"], "i1.md"⟩,
          ⟨"i2", "U", 2, 2, none, [], "i2.md"⟩], [("b", ["i1"])], []⟩
            : NoteStore).index ∧
        n.id ∈ getKey
          (⟨[⟨"i1", "T", 1, 1, none, ["b"], "i1.md"⟩,
            ⟨"i2", "U", 2, 2, none, [], "i2.md"⟩], [("b", ["i1"])], []⟩
              : NoteStore).tagsIndex
          (String.mk ((pyLower "#b").data.drop 1))) :=
  ⟨by decide,
   (C5_tag_search_amended
     ⟨[⟨"i1", "T", 1, 1, none, ["b"], "i1.md"⟩,
       ⟨"i2", "U", 2, 2, none, [], "i2.md"⟩], [("b", ["i1"])], []⟩ "#b"
     (by decide)).2.2⟩

/-! ### C2: update_tags fully replaces the edited note's tag memberships -/

theorem removeFirst_eq_erase (l : List String) (x : String) :
    removeFirst l x = l.erase x := by
  induction l with
  | nil => rfl
  | cons y ys ih =>
    rw [removeFirst, List.erase_cons]
    by_cases h : y == x
    · rw [if_pos h, if_pos h]
    · rw [if_neg h, if_neg h, ih]

theorem removeIdAll_entry_val (a : String × List String) (note_id : String) :
    (if a.2.contains note_id then removeFirst a.2 note_id else a.2)
      = a.2.erase note_id := by
  by_cases hc : a.2.contains note_id = true
  · rw [if_pos hc, removeFirst_eq_erase]
  · rw [if_neg hc, List.erase_of_not_mem]
    intro hm
    exact hc (List.elem_iff.mpr hm)

theorem getKey_cons_pos {a : String × List String} {rest : TagsIndex} {t : String}
    (h : (a.1 == t) = true) : getKey (a :: rest) t = a.2 := by
  unfold getKey
  rw [List.find?_cons_of_pos rest h]

theorem getKey_cons_neg {a : String × List String} {rest : TagsIndex} {t : String}
    (h : ¬((a.1 == t) = true)) : getKey (a :: rest) t = getKey rest t := by
  unfold getKey
  rw [List.find?_cons_of_neg rest h]

theorem getKey_pair_cons_pos {k : String} {v : List String} {rest : TagsIndex}
    {t : String} (h : (k == t) = true) : getKey ((k, v) :: rest) t = v :=
  getKey_cons_pos h

theorem getKey_pair_cons_neg {k : String} {v : List String} {rest : TagsIndex}
    {t : String} (h : ¬((k == t) = true)) :
    getKey ((k, v) :: rest) t = getKey rest t :=
  getKey_cons_neg h

theorem removeIdAll_cons (a : String × List String) (rest : TagsIndex)
    (note_id : String) :
    removeIdAll (a :: rest) note_id
      = (a.1, if a.2.contains note_id then removeFirst a.2 note_id else a.2)
        :: removeIdAll rest note_id := rfl

theorem keys_removeIdAll (ti : TagsIndex) (note_id : String) :
    (removeIdAll ti note_id).map Prod.fst = ti.map Prod.fst := by
  unfold removeIdAll
  rw [List.map_map]
  exact List.map_congr_left (fun a _ => rfl)

theorem getKey_removeIdAll (ti : TagsIndex) (note_id t : String) :
    getKey (removeIdAll ti note_id) t = (getKey ti t).erase note_id := by
  induction ti with
  | nil => rfl
  | cons a rest ih =>
    by_cases ha : (a.1 == t) = true
    · rw [removeIdAll_cons, getKey_pair_cons_pos ha, getKey_cons_pos ha]
      exact removeIdAll_entry_val a note_id
    · rw [removeIdAll_cons, getKey_pair_cons_neg ha, getKey_cons_neg ha]
      exact ih

theorem find?_key_of_mem_nodup {ti : TagsIndex}
    (hkeys : (ti.map Prod.fst).Nodup)
    {p : String × List String} (hp : p ∈ ti) :
    ti.find? (fun q => q.1 == p.1) = some p := by
  induction ti with
  | nil => cases hp
  | cons a rest ih =>
    rw [List.map_cons] at hkeys
    rcases List.mem_cons.mp hp with rfl | hmem
    · exact List.find?_cons_of_pos rest (by simp)
    · have hne : ¬((a.1 == p.1) = true) := by
        intro h
        have ha : a.1 = p.1 := eq_of_beq h
        have : p.1 ∈ rest.map Prod.fst := List.mem_map_of_mem Prod.fst hmem
        exact (List.nodup_cons.mp hkeys).1 (ha ▸ this)
      rw [List.find?_cons_of_neg rest hne]
      exact ih (List.nodup_cons.mp hkeys).2 hmem

theorem getKey_eq_nil_of_not_mem_keys {ti : TagsIndex} {t : String}
    (h : t ∉ ti.map Prod.fst) : getKey ti t = [] := by
  have hf : ti.find? (fun q => q.1 == t) = none := by
    rw [List.find?_eq_none]
    intro x hx hb
    exact h (eq_of_beq hb ▸ List.mem_map_of_mem Prod.fst hx)
  unfold getKey
  rw [hf]

theorem getKey_nodup {ti : TagsIndex} (hids : ∀ p ∈ ti, p.2.Nodup) (t : String) :
    (getKey ti t).Nodup := by
  unfold getKey
  cases hf : ti.find? (fun q => q.1 == t) with
  | none => exact List.nodup_nil
  | some q => exact hids q (List.mem_of_find?_eq_some hf)

theorem hasKey_iff (ti : TagsIndex) (t : String) :
    hasKey ti t = true ↔ t ∈ ti.map Prod.fst := by
  unfold hasKey
  rw [List.any_eq_true]
  constructor
  · rintro ⟨p, hp, hb⟩
    exact eq_of_beq hb ▸ List.mem_map_of_mem Prod.fst hp
  · intro h
    rcases List.mem_map.mp h with ⟨p, hp, rfl⟩
    exact ⟨p, hp, by simp⟩

theorem appendToKey_cons (a : String × List String) (rest : TagsIndex)
    (t note_id : String) :
    appendToKey (a :: rest) t note_id
      = (if a.1 == t then (a.1, a.2 ++ [note_id]) else a)
        :: appendToKey rest t note_id := rfl

theorem keys_appendToKey (ti : TagsIndex) (t note_id : String) :
    (appendToKey ti t note_id).map Prod.fst = ti.map Prod.fst := by
  unfold appendToKey
  rw [List.map_map]
  refine List.map_congr_left (fun a _ => ?_)
  by_cases h : (a.1 == t) = true
  · simp [Function.comp, h]
  · simp [Function.comp, h]

theorem getKey_appendToKey_self (ti : TagsIndex) (t note_id : String)
    (h : hasKey ti t = true) :
    getKey (appendToKey ti t note_id) t = getKey ti t ++ [note_id] := by
  induction ti with
  | nil => cases (by rw [hasKey_iff] at h; simpa using h : False)
  | cons a rest ih =>
    by_cases ha : (a.1 == t) = true
    · rw [appendToKey_cons, if_pos ha, getKey_pair_cons_pos ha, getKey_cons_pos ha]
    · have hrest : hasKey rest t = true := by
        rw [hasKey_iff] at h ⊢
        rw [List.map_cons] at h
        rcases List.mem_cons.mp h with rfl | hm
        · exact absurd (by simp : (a.1 == a.1) = true) ha
        · exact hm
      rw [appendToKey_cons, if_neg ha, getKey_cons_neg ha, getKey_cons_neg ha]
      exact ih hrest

theorem getKey_appendToKey_other (ti : TagsIndex) (t note_id t' : String)
    (hne : t' ≠ t) :
    getKey (appendToKey ti t note_id) t' = getKey ti t' := by
  induction ti with
  | nil => rfl
  | cons a rest ih =>
    by_cases ha : (a.1 == t) = true
    · have hat : a.1 = t := eq_of_beq ha
      have hna : ¬((a.1 == t') = true) := by
        intro hb
        exact hne ((eq_of_beq hb) ▸ hat ▸ rfl)
      rw [appendToKey_cons, if_pos ha]
      rw [getKey_pair_cons_neg hna, getKey_cons_neg hna]
      exact ih
    · rw [appendToKey_cons, if_neg ha]
      by_cases hb : (a.1 == t') = true
      · rw [getKey_cons_pos hb, getKey_cons_pos hb]
      · rw [getKey_cons_neg hb, getKey_cons_neg hb]
        exact ih

theorem vals_appendToKey_nodup (ti : TagsIndex) (t note_id : String)
    (hkeys : (ti.map Prod.fst).Nodup) (hvals : ∀ p ∈ ti, p.2.Nodup)
    (hc : (getKey ti t).contains note_id = false) :
    ∀ p ∈ appendToKey ti t note_id, p.2.Nodup := by
  intro p hp
  unfold appendToKey at hp
  rcases List.mem_map.mp hp with ⟨q, hq, rfl⟩
  by_cases hqt : (q.1 == t) = true
  · rw [if_pos hqt]
    have hfind : ti.find? (fun r => r.1 == q.1) = some q :=
      find?_key_of_mem_nodup hkeys hq
    have hget : getKey ti t = q.2 := by
      rw [← eq_of_beq hqt]
      unfold getKey
      rw [hfind]
    have hid : note_id ∉ q.2 := by
      intro hm
      have h2 : q.2.contains note_id = true := List.elem_iff.mpr hm
      rw [hget] at hc
      rw [h2] at hc
      cases hc
    exact (hvals q hq).append (List.nodup_singleton note_id)
      (fun a ha hb => hid (List.mem_singleton.mp hb ▸ ha))
  · rw [if_neg hqt]
    exact hvals q hq

theorem hasKey_append_self (ti : TagsIndex) (t : String) :
    hasKey (ti ++ [(t, [])]) t = true := by
  unfold hasKey
  rw [List.any_eq_true]
  exact ⟨(t, []), List.mem_append.mpr (Or.inr (List.mem_singleton.mpr rfl)), by simp⟩

theorem getKey_append_new (ti : TagsIndex) (t : String) (hk : ¬hasKey ti t = true) :
    getKey (ti ++ [(t, [])]) t = [] := by
  unfold getKey
  rw [find?_append_singleton _ ti (t, []) ?h1 (by simp)]
  intro x hx
  by_cases hb : (x.1 == t) = true
  · exact absurd ((hasKey_iff ti t).mpr (eq_of_beq hb ▸ List.mem_map_of_mem Prod.fst hx)) hk
  · exact Bool.not_eq_true _ ▸ (by simpa using hb)

theorem getKey_append_other (ti : TagsIndex) (t t' : String) (hne : t' ≠ t) :
    getKey (ti ++ [(t, [])]) t' = getKey ti t' := by
  unfold getKey
  rw [List.find?_append]
  cases hf : ti.find? (fun q => q.1 == t') with
  | some p => rfl
  | none =>
    have hb : ((((t, []) : String × List String).1 == t') = false) := by
      apply beq_eq_false_iff_ne.mpr
      exact fun h => hne h.symm
    simp [List.find?, hb]

theorem getKey_addTag_self (ti : TagsIndex) (note_id t : String) :
    getKey (addTag ti note_id t) t
      = if (getKey ti t).contains note_id then getKey ti t
        else getKey ti t ++ [note_id] := by
  simp only [addTag]
  by_cases hk : hasKey ti t = true
  · rw [if_pos hk]
    by_cases hc : (getKey ti t).contains note_id = true
    · rw [if_pos hc, if_pos hc]
    · rw [if_neg hc, if_neg hc, getKey_appendToKey_self ti t note_id hk]
  · rw [if_neg hk]
    have hg : getKey (ti ++ [(t, [])]) t = [] := getKey_append_new ti t hk
    have hg0 : getKey ti t = [] :=
      getKey_eq_nil_of_not_mem_keys (fun hm => hk ((hasKey_iff ti t).mpr hm))
    rw [hg, hg0]
    simp only [List.contains_nil, Bool.false_eq_true, if_false]
    rw [getKey_appendToKey_self (ti ++ [(t, [])]) t note_id (hasKey_append_self ti t), hg]

theorem getKey_addTag_other (ti : TagsIndex) (note_id t t' : String) (hne : t' ≠ t) :
    getKey (addTag ti note_id t) t' = getKey ti t' := by
  simp only [addTag]
  by_cases hk : hasKey ti t = true
  · rw [if_pos hk]
    by_cases hc : (getKey ti t).contains note_id = true
    · rw [if_pos hc]
    · rw [if_neg hc, getKey_appendToKey_other ti t note_id t' hne]
  · rw [if_neg hk]
    have happ := getKey_append_other ti t t' hne
    by_cases hc : (getKey (ti ++ [(t, [])]) t).contains note_id = true
    · rw [if_pos hc, happ]
    · rw [if_neg hc, getKey_appendToKey_other _ t note_id t' hne, happ]

theorem keys_addTag_nodup (ti : TagsIndex) (note_id t : String)
    (hkeys : (ti.map Prod.fst).Nodup) :
    ((addTag ti note_id t).map Prod.fst).Nodup := by
  simp only [addTag]
  by_cases hk : hasKey ti t = true
  · rw [if_pos hk]
    by_cases hc : (getKey ti t).contains note_id = true
    · rw [if_pos hc]; exact hkeys
    · rw [if_neg hc, keys_appendToKey]; exact hkeys
  · rw [if_neg hk]
    have ht : t ∉ ti.map Prod.fst := fun hm => hk ((hasKey_iff ti t).mpr hm)
    have hnodup : ((ti ++ [(t, [])]).map Prod.fst).Nodup := by
      rw [List.map_append]
      exact hkeys.append (List.nodup_singleton t)
        (fun a ha hb => ht ((by simpa using hb : a = t) ▸ ha))
    by_cases hc : (getKey (ti ++ [(t, [])]) t).contains note_id = true
    · rw [if_pos hc]; exact hnodup
    · rw [if_neg hc, keys_appendToKey]; exact hnodup

theorem vals_addTag_nodup (ti : TagsIndex) (note_id t : String)
    (hkeys : (ti.map Prod.fst).Nodup) (hvals : ∀ p ∈ ti, p.2.Nodup) :
    ∀ p ∈ addTag ti note_id t, p.2.Nodup := by
  simp only [addTag]
  by_cases hk : hasKey ti t = true
  · rw [if_pos hk]
    by_cases hc : (getKey ti t).contains note_id = true
    · rw [if_pos hc]; exact hvals
    · rw [if_neg hc]
      exact vals_appendToKey_nodup ti t note_id hkeys hvals
        (by revert hc; cases (getKey ti t).contains note_id <;> simp)
  · rw [if_neg hk]
    have ht : t ∉ ti.map Prod.fst := fun hm => hk ((hasKey_iff ti t).mpr hm)
    have hnodup : ((ti ++ [(t, [])]).map Prod.fst).Nodup := by
      rw [List.map_append]
      exact hkeys.append (List.nodup_singleton t)
        (fun a ha hb => ht ((by simpa using hb : a = t) ▸ ha))
    have hvals' : ∀ p ∈ ti ++ [(t, [])], p.2.Nodup := by
      intro p hp
      rcases List.mem_append.mp hp with hp | hp
      · exact hvals p hp
      · rw [List.mem_singleton.mp hp]
        exact List.nodup_nil
    have hg : getKey (ti ++ [(t, [])]) t = [] := getKey_append_new ti t hk
    by_cases hc : (getKey (ti ++ [(t, [])]) t).contains note_id = true
    · rw [if_pos hc]; exact hvals'
    · rw [if_neg hc]
      exact vals_appendToKey_nodup _ t note_id hnodup hvals'
        (by rw [hg]; rfl)

theorem foldl_addTag_props (note_id : String) (tags : List String) :
    ∀ ti : TagsIndex, (ti.map Prod.fst).Nodup →
      ((∀ t, note_id ∈ getKey (tags.foldl (fun acc tag => addTag acc note_id tag) ti) t
          ↔ t ∈ tags ∨ note_id ∈ getKey ti t) ∧
       (∀ oid t, oid ≠ note_id →
         (oid ∈ getKey (tags.foldl (fun acc tag => addTag acc note_id tag) ti) t
           ↔ oid ∈ getKey ti t)) ∧
       (((tags.foldl (fun acc tag => addTag acc note_id tag) ti).map Prod.fst).Nodup) ∧
       ((∀ p ∈ ti, p.2.Nodup) →
         ∀ p ∈ tags.foldl (fun acc tag => addTag acc note_id tag) ti, p.2.Nodup)) := by
  induction tags with
  | nil =>
    intro ti hkeys
    exact ⟨fun t => by simp, fun oid t _ => Iff.rfl, hkeys, fun h => h⟩
  | cons tag rest ih =>
    intro ti hkeys
    have hkeys' := keys_addTag_nodup ti note_id tag hkeys
    obtain ⟨ih1, ih2, ih3, ih4⟩ := ih (addTag ti note_id tag) hkeys'
    refine ⟨?_, ?_, by rw [List.foldl_cons]; exact ih3, ?_⟩
    · intro t
      rw [List.foldl_cons, ih1 t]
      constructor
      · rintro (h | h)
        · exact Or.inl (List.mem_cons_of_mem tag h)
        · by_cases hteq : t = tag
          · exact Or.inl (hteq ▸ List.mem_cons_self tag rest)
          · rw [getKey_addTag_other ti note_id tag t hteq] at h
            exact Or.inr h
      · rintro (h | h)
        · rcases List.mem_cons.mp h with rfl | hmem
          · right
            rw [getKey_addTag_self]
            by_cases hc : (getKey ti t).contains note_id = true
            · rw [if_pos hc]
              exact List.elem_iff.mp hc
            · rw [if_neg hc]
              exact List.mem_append.mpr (Or.inr (List.mem_singleton.mpr rfl))
          · exact Or.inl hmem
        · right
          by_cases hteq : t = tag
          · subst hteq
            rw [getKey_addTag_self]
            by_cases hc : (getKey ti t).contains note_id = true
            · rw [if_pos hc]; exact h
            · rw [if_neg hc]; exact List.mem_append.mpr (Or.inl h)
          · rw [getKey_addTag_other ti note_id tag t hteq]
            exact h
    · intro oid t hne
      rw [List.foldl_cons, ih2 oid t hne]
      by_cases hteq : t = tag
      · subst hteq
        rw [getKey_addTag_self]
        by_cases hc : (getKey ti t).contains note_id = true
        · rw [if_pos hc]
        · rw [if_neg hc]
          constructor
          · intro hm
            rcases List.mem_append.mp hm with hm | hm
            · exact hm
            · exact absurd (List.mem_singleton.mp hm) hne
          · exact fun hm => List.mem_append.mpr (Or.inl hm)
      · rw [getKey_addTag_other ti note_id tag t hteq]
    · intro hvals
      rw [List.foldl_cons]
      exact ih4 (vals_addTag_nodup ti note_id tag hkeys hvals)

theorem getKey_filter_empties (x t : String) :
    ∀ ti : TagsIndex, (ti.map Prod.fst).Nodup →
      (x ∈ getKey (ti.filter (fun p => !p.2.isEmpty)) t ↔ x ∈ getKey ti t) := by
  intro ti
  induction ti with
  | nil => intro _; exact Iff.rfl
  | cons a rest ih =>
    intro hkeys
    rw [List.map_cons] at hkeys
    have hkr : (rest.map Prod.fst).Nodup := (List.nodup_cons.mp hkeys).2
    by_cases ha : (a.1 == t) = true
    · cases hb : a.2.isEmpty with
      | true =>
        rw [List.filter_cons]
        simp only [hb, Bool.not_true, Bool.false_eq_true, if_false]
        rw [getKey_cons_pos ha]
        have ha2 : a.2 = [] := List.isEmpty_iff.mp hb
        have ht : t ∉ rest.map Prod.fst := by
          have := (List.nodup_cons.mp hkeys).1
          rwa [eq_of_beq ha] at this
        rw [ih hkr, getKey_eq_nil_of_not_mem_keys ht, ha2]
      | false =>
        rw [List.filter_cons]
        simp only [hb, Bool.not_false, if_true]
        rw [getKey_cons_pos ha, getKey_cons_pos ha]
    · cases hb : a.2.isEmpty with
      | true =>
        rw [List.filter_cons]
        simp only [hb, Bool.not_true, Bool.false_eq_true, if_false]
        rw [getKey_cons_neg ha]
        exact ih hkr
      | false =>
        rw [List.filter_cons]
        simp only [hb, Bool.not_false, if_true]
        rw [getKey_cons_neg ha, getKey_cons_neg ha]
        exact ih hkr

/-- C2: update_tags(note_id, tags) fully replaces the note's tag
memberships: afterwards note_id belongs to the entry of a tag exactly when
the tag is in the new list, every other id keeps exactly its previous
memberships, and no id list acquires duplicates.  The hypotheses state the
store invariants: dict keys are unique and the persisted id lists hold no
duplicates. -/
theorem C2_update_tags_replaces (note_id : String) (tags : List String)
    (ti : TagsIndex) (hkeys : (ti.map Prod.fst).Nodup)
    (hids : ∀ p ∈ ti, p.2.Nodup) :
    (∀ t, note_id ∈ getKey (update_tags note_id tags ti) t ↔ t ∈ tags) ∧
    (∀ oid t, oid ≠ note_id →
      (oid ∈ getKey (update_tags note_id tags ti) t ↔ oid ∈ getKey ti t)) ∧
    (∀ p ∈ update_tags note_id tags ti, p.2.Nodup) := by
  have hkeys1 : ((removeIdAll ti note_id).map Prod.fst).Nodup := by
    rw [keys_removeIdAll]
    exact hkeys
  obtain ⟨h1, h2, h3, h4⟩ :=
    foldl_addTag_props note_id tags (removeIdAll ti note_id) hkeys1
  have hvals1 : ∀ p ∈ removeIdAll ti note_id, p.2.Nodup := by
    intro p hp
    unfold removeIdAll at hp
    rcases List.mem_map.mp hp with ⟨q, hq, rfl⟩
    simp only [removeIdAll_entry_val]
    exact List.Pairwise.sublist (List.erase_sublist note_id q.2) (hids q hq)
  refine ⟨?_, ?_, ?_⟩
  · intro t
    simp only [update_tags]
    rw [getKey_filter_empties note_id t _ h3, h1 t, getKey_removeIdAll]
    constructor
    · rintro (h | h)
      · exact h
      · rcases (List.Nodup.mem_erase_iff (getKey_nodup hids t)).mp h with ⟨hne, _⟩
        exact absurd rfl hne
    · exact fun h => Or.inl h
  · intro oid t hne
    simp only [update_tags]
    rw [getKey_filter_empties oid t _ h3, h2 oid t hne, getKey_removeIdAll]
    exact List.mem_erase_of_ne hne
  · intro p hp
    simp only [update_tags] at hp
    exact h4 hvals1 p (List.mem_filter.mp hp).1

/-- Witness for C2: note n1 starts with tags a and b (b shared with n2) and
is retagged to just c; afterwards n1 is in the entry for c and not a or b,
and n2 keeps its membership in b. -/
theorem C2_update_tags_replaces_witness :
    (([("a", ["n1"]), ("b", ["n1", "n2"])] : TagsIndex).map Prod.fst).Nodup ∧
    (∀ p ∈ ([("a", ["n1"]), ("b", ["n1", "n2"])] : TagsIndex), p.2.Nodup) ∧
    ("n1" ∈ getKey (update_tags "n1" ["c"] [("a", ["n1"]), ("b", ["n1", "n2"])]) "c"
      ↔ "c" ∈ ["c"]) ∧
    ("n1" ∈ getKey (update_tags "n1" ["c"] [("a", ["n1"]), ("b", ["n1", "n2"])]) "a"
      ↔ "a" ∈ ["c"]) ∧
    ("n2" ∈ getKey (update_tags "n1" ["c"] [("a", ["n1"]), ("b", ["n1", "n2"])]) "b"
      ↔ "n2" ∈ getKey ([("a", ["n1"]), ("b", ["n1", "n2"])] : TagsIndex) "b") :=
  ⟨by decide, by decide,
   (C2_update_tags_replaces "n1" ["c"] [("a", ["n1"]), ("b", ["n1", "n2"])]
     (by decide) (by decide)).1 "c",
   (C2_update_tags_replaces "n1" ["c"] [("a", ["n1"]), ("b", ["n1", "n2"])]
     (by decide) (by decide)).1 "a",
   (C2_update_tags_replaces "n1" ["c"] [("a", ["n1"]), ("b", ["n1", "n2"])]
     (by decide) (by decide)).2.1 "n2" "b" (by decide)⟩

end Mist
